import Mathlib

set_option linter.unusedSectionVars false

set_option linter.unnecessarySimpa false

set_option linter.unusedVariables false

/- Verification of the dense single-variable polynomial value type from
   class-polynomial.cpp.  The C++ class stores `std::vector<T> coef`
   (coefficient of x^i at index i) and keeps it canonical (no trailing
   zeros).  Every operation below is a direct functional translation of
   the corresponding member of the class; loops that mutate state become
   structural recursion (the two unbounded `while` loops of division and
   GCD take an explicit fuel argument; their termination is proved as a
   theorem). -/

namespace PolyCpp

/-- The polynomial value type: the stored coefficient vector, low degree
    first, mirroring the private member `std::vector<T> coef`. -/
structure Poly (T : Type) where
  coef : List T

variable {T : Type}

section CoreDefs

variable [CommRing T] [DecidableEq T]

/-- Model of `Polynomial::Delete_Front_Zeros`: repeatedly pop the last
    stored coefficient while it equals `T()`. -/
def Delete_Front_Zeros : List T → List T
  | [] => []
  | a :: rest =>
    if (Delete_Front_Zeros rest).isEmpty then (if a = 0 then [] else [a])
    else a :: Delete_Front_Zeros rest

/-- Constructor from a coefficient vector: store, then strip trailing zeros. -/
def ofList (v : List T) : Poly T := ⟨Delete_Front_Zeros v⟩

/-- Constructor from a single constant `c` (default `T()`): the empty vector
    when `c` is zero, else the one-element vector `[c]`. -/
def ofConst (c : T) : Poly T := if c = 0 then ⟨[]⟩ else ⟨[c]⟩

/-- Constructor from an iterator pair: collect the elements in order, then
    strip trailing zeros. -/
def ofIter (v : List T) : Poly T := ⟨Delete_Front_Zeros v⟩

/-- Index of the last non-zero entry of the stored vector, if any; the
    downward scan of `Polynomial::Degree`. -/
def lastNonzeroIdx : List T → Option Nat
  | [] => none
  | a :: rest =>
    match lastNonzeroIdx rest with
    | some i => some (i + 1)
    | none => if a = 0 then none else some 0

/-- Model of `Polynomial::Degree`: highest index holding a non-zero
    coefficient, or `-1` for the zero polynomial. -/
def Degree (p : Poly T) : Int :=
  match lastNonzeroIdx p.coef with
  | some i => (i : Int)
  | none => -1

/-- Model of `Polynomial::operator[]`: the stored coefficient when the index
    is in range, the default value `T()` otherwise.  Total by construction. -/
def getCoef (p : Poly T) (d : Nat) : T := p.coef.getD d 0

/-- `operator[]` applied to an `int` index, as the C++ code does inside
    division and GCD: a negative index converts to a huge `size_t`, so the
    out-of-range default `T()` is returned. -/
def getI (p : Poly T) (i : Int) : T := if 0 ≤ i then getCoef p i.toNat else 0

/-- Model of `Polynomial::operator==`: degrees must match, then all
    coefficients from the degree down to 0 must match. -/
def polyBEq (p q : Poly T) : Bool :=
  if Degree p ≠ Degree q then false
  else
    match Degree p with
    | Int.negSucc _ => true
    | Int.ofNat n => (List.range (n + 1)).all fun i => decide (getCoef p i = getCoef q i)

/-- Model of `Polynomial::operator!=`. -/
def polyNe (p q : Poly T) : Bool := !(polyBEq p q)

/-- Model of `Polynomial::operator+`: pointwise sum over the larger size,
    then the canonicalizing constructor. -/
def add (p q : Poly T) : Poly T :=
  ofList ((List.range (max p.coef.length q.coef.length)).map fun i =>
    getCoef p i + getCoef q i)

/-- Model of `Polynomial::operator-`: pointwise difference over the larger
    size, then the canonicalizing constructor. -/
def sub (p q : Poly T) : Poly T :=
  ofList ((List.range (max p.coef.length q.coef.length)).map fun i =>
    getCoef p i - getCoef q i)

/-- The value accumulated into `pol[k]` by the convolution double loop of
    `Polynomial::operator*`. -/
def convCoef (a b : List T) (k : Nat) : T :=
  ((List.range a.length).map fun i =>
    ((List.range b.length).map fun j =>
      if i + j = k then a.getD i 0 * b.getD j 0 else 0).sum).sum

/-- Model of `Polynomial::operator*`: full convolution into a vector of
    length `size + size`, then the canonicalizing constructor. -/
def mul (p q : Poly T) : Poly T :=
  ofList ((List.range (p.coef.length + q.coef.length)).map (convCoef p.coef q.coef))

/-- Model of `Polynomial::operator+=`: resize the backing vector to the
    larger size padding with `T()`, add the other operand's coefficients in
    place, then strip trailing zeros. -/
def addAssign (p q : Poly T) : Poly T :=
  ⟨Delete_Front_Zeros ((List.range (max p.coef.length q.coef.length)).map fun i =>
    (p.coef ++ List.replicate (max p.coef.length q.coef.length - p.coef.length) 0).getD i 0
      + getCoef q i)⟩

/-- Model of `Polynomial::operator-=`: like `addAssign` with subtraction. -/
def subAssign (p q : Poly T) : Poly T :=
  ⟨Delete_Front_Zeros ((List.range (max p.coef.length q.coef.length)).map fun i =>
    (p.coef ++ List.replicate (max p.coef.length q.coef.length - p.coef.length) 0).getD i 0
      - getCoef q i)⟩

/-- Model of `Polynomial::operator*=`: a full multiply into a fresh
    polynomial which then replaces the receiver. -/
def mulAssign (p q : Poly T) : Poly T := mul p q

/-- Model of `Polynomial::operator&` (composition): for each index `i` with
    a non-zero stored coefficient, build `Polynomial(coef[i])`, multiply it
    by `other` `i` times in place, and accumulate with `+=`. -/
def comp (p q : Poly T) : Poly T :=
  (List.range p.coef.length).foldl
    (fun acc i =>
      if p.coef.getD i 0 ≠ 0 then
        addAssign acc
          ((List.range i).foldl (fun tmp _ => mulAssign tmp q) (ofConst (p.coef.getD i 0)))
      else acc)
    (ofConst 0)

/-- Specification-side composition used to state claim C6: the same sum of
    terms, but without skipping zero coefficients and accumulated with the
    pure addition instead of the in-place one. -/
def compAll (p q : Poly T) : Poly T :=
  (List.range p.coef.length).foldl
    (fun acc i =>
      add acc ((List.range i).foldl (fun tmp _ => mul tmp q) (ofConst (p.coef.getD i 0))))
    (ofConst 0)

end CoreDefs

section FieldDefs

variable [Field T] [DecidableEq T]

/-- One pass of the long-division loop body acting on the running remainder
    `first`: subtract `other * (t * x^(fd - od))` where
    `t = first[fd] / other[od]`. -/
def divStep (other f : Poly T) : Poly T :=
  sub f (mul other (ofList (List.replicate (Degree f - Degree other).toNat 0
    ++ [getI f (Degree f) / getI other (Degree other)])))

/-- The `while (first.Degree() >= other.Degree())` loop of
    `Polynomial::operator/`, with explicit fuel standing in for the
    unbounded loop; each pass updates the running remainder by `divStep` and
    accumulates `t` into `result[fd - od]`. -/
def divLoopFuel : Nat → Poly T → List T → Poly T → Poly T × List T
  | 0, f, r, _ => (f, r)
  | n + 1, f, r, other =>
    if Degree other ≤ Degree f then
      divLoopFuel n (divStep other f)
        (r.set (Degree f - Degree other).toNat
          (r.getD (Degree f - Degree other).toNat 0
            + getI f (Degree f) / getI other (Degree other)))
        other
    else (f, r)

/-- Model of `Polynomial::operator/`: run the long-division loop starting
    from a copy of the dividend and a zero-initialized result vector of the
    dividend's raw length, then canonicalize the result.  The fuel
    `coef.length + 1` is enough for the loop to reach its exit condition
    whenever the divisor is non-zero (proved in claim C4). -/
def div (a b : Poly T) : Poly T :=
  ofList (divLoopFuel (a.coef.length + 1) a (List.replicate a.coef.length 0) b).2

/-- Model of `Polynomial::operator%`: `*this - (*this / other) * other`. -/
def pmod (a b : Poly T) : Poly T := sub a (mul (div a b) b)

/-- The `while (second.Degree() > 0)` Euclidean loop of
    `Polynomial::operator,`: each pass replaces `(first, second)` by
    `(second, first % second)`. -/
def gcdLoopFuel : Nat → Poly T → Poly T → Poly T × Poly T
  | 0, f, s => (f, s)
  | n + 1, f, s =>
    if 0 < Degree s then gcdLoopFuel n s (pmod f s) else (f, s)

/-- Model of `Polynomial::operator,` (polynomial GCD): swap so the first
    argument's degree is at least the second's, run the Euclidean loop,
    return the constant 1 when the terminal `second` is non-zero, otherwise
    divide the terminal `first` by its own leading coefficient. -/
def gcdOp (a b : Poly T) : Poly T :=
  let fs := if Degree a < Degree b then (b, a) else (a, b)
  let out := gcdLoopFuel (a.coef.length + b.coef.length + 1) fs.1 fs.2
  if polyNe out.2 (ofConst 0) then ofConst 1
  else div out.1 (ofConst (getI out.1 (Degree out.1)))

end FieldDefs

/-- The characters printed for the term of degree `i` by the streaming
    `operator<<`, for integer coefficients (`out << pol[i]` becomes
    `toString`). -/
def termString (p : Poly Int) (deg : Int) (i : Nat) : String :=
  if getCoef p i ≠ 0 then
    if getCoef p i ≠ 1 ∧ getCoef p i ≠ -1 then
      (if (i : Int) ≠ deg ∧ 0 < getCoef p i then "+" else "")
        ++ toString (getCoef p i)
        ++ (if 1 < i then "*x^" ++ toString i else "")
        ++ (if i = 1 then "*x" else "")
    else if getCoef p i = -1 then
      (if 1 < i then "-x^" ++ toString i else "")
        ++ (if i = 1 then "-x" else "")
        ++ (if i = 0 then toString (getCoef p i) else "")
    else
      (if (i : Int) ≠ deg then "+" else "")
        ++ (if 1 < i then "x^" ++ toString i else "")
        ++ (if i = 1 then "x" else "")
        ++ (if i = 0 then toString (getCoef p i) else "")
  else ""

/-- Model of the free `operator<<`: `0` for the zero polynomial, otherwise
    the terms from the degree down to zero, concatenated. -/
def printPoly (p : Poly Int) : String :=
  if Degree p = -1 then "0"
  else String.join (((List.range ((Degree p).toNat + 1)).reverse).map
    (termString p (Degree p)))

/-- Canonical form as the specification states it: no stored trailing zero
    (the last stored element, when present, is non-zero), and the zero
    polynomial is stored as the empty vector. -/
def Canonical [CommRing T] [DecidableEq T] (p : Poly T) : Prop :=
  (∀ x, p.coef.getLast? = some x → x ≠ 0) ∧ (Degree p = -1 → p.coef = [])

end PolyCpp

/-- A small exact field with kernel-computable arithmetic, used to evaluate
    the definitions on concrete inputs: the integers mod 5. -/
def F5 : Type := Fin 5

instance : DecidableEq F5 := inferInstanceAs (DecidableEq (Fin 5))

instance : Fintype F5 := inferInstanceAs (Fintype (Fin 5))

instance : CommRing F5 := inferInstanceAs (CommRing (Fin 5))

instance : Field F5 where
  inv := fun a => a * a * a
  exists_pair_ne := ⟨(0 : F5), (1 : F5), by decide⟩
  mul_inv_cancel := by decide
  inv_zero := by decide
  nnqsmul := _
  qsmul := _

namespace PolyCpp

section BasicLemmas

variable [CommRing T] [DecidableEq T]

lemma getD_out : ∀ (l : List T) (i : Nat), l.length ≤ i → l.getD i 0 = 0 := by
  intro l
  induction l with
  | nil => intro i _; cases i <;> rfl
  | cons a rest ih =>
    intro i hi
    cases i with
    | zero => simp at hi
    | succ j => simpa using ih j (by simpa using hi)

lemma getD_lt : ∀ (l : List T) (i : Nat) (h : i < l.length), l.getD i 0 = l.get ⟨i, h⟩ := by
  intro l
  induction l with
  | nil => intro i h; simp at h
  | cons a rest ih =>
    intro i h
    cases i with
    | zero => rfl
    | succ j => simpa using ih j (by simpa using h)

lemma dfz_cons (a : T) (rest : List T) :
    Delete_Front_Zeros (a :: rest)
      = if (Delete_Front_Zeros rest).isEmpty then (if a = 0 then [] else [a])
        else a :: Delete_Front_Zeros rest := rfl

lemma dfz_nil_getD (l : List T) (h : Delete_Front_Zeros l = []) :
    ∀ i, l.getD i 0 = 0 := by
  induction l with
  | nil => intro i; cases i <;> rfl
  | cons a rest ih =>
    rw [dfz_cons] at h
    cases hdfz : Delete_Front_Zeros rest with
    | nil =>
      rw [hdfz] at h
      simp only [List.isEmpty_nil, if_true] at h
      by_cases ha : a = 0
      · intro i
        cases i with
        | zero => simpa using ha
        | succ j => simpa using ih hdfz j
      · rw [if_neg ha] at h
        cases h
    | cons b t =>
      rw [hdfz] at h
      simp at h

lemma dfz_getD (l : List T) (i : Nat) :
    (Delete_Front_Zeros l).getD i 0 = l.getD i 0 := by
  induction l generalizing i with
  | nil => rfl
  | cons a rest ih =>
    rw [dfz_cons]
    cases hdfz : Delete_Front_Zeros rest with
    | nil =>
      simp only [List.isEmpty_nil, if_true]
      by_cases ha : a = 0
      · rw [if_pos ha]
        cases i with
        | zero => simpa using ha.symm
        | succ j => simpa using (dfz_nil_getD rest hdfz j).symm
      · rw [if_neg ha]
        cases i with
        | zero => rfl
        | succ j => simpa using (dfz_nil_getD rest hdfz j).symm
    | cons b t =>
      simp only [List.isEmpty_cons, Bool.false_eq_true, if_false]
      cases i with
      | zero => rfl
      | succ j =>
        have h1 := ih j
        rw [hdfz] at h1
        simpa using h1

lemma dfz_getLast (l : List T) :
    ∀ x, (Delete_Front_Zeros l).getLast? = some x → x ≠ 0 := by
  induction l with
  | nil => intro x hx; simp [Delete_Front_Zeros] at hx
  | cons a rest ih =>
    intro x hx
    rw [dfz_cons] at hx
    cases hdfz : Delete_Front_Zeros rest with
    | nil =>
      rw [hdfz] at hx
      simp only [List.isEmpty_nil, if_true] at hx
      by_cases ha : a = 0
      · rw [if_pos ha] at hx
        simp at hx
      · rw [if_neg ha] at hx
        simp only [List.getLast?_singleton, Option.some.injEq] at hx
        subst hx
        exact ha
    | cons b t =>
      rw [hdfz] at hx
      simp only [List.isEmpty_cons, Bool.false_eq_true, if_false] at hx
      rw [List.getLast?_cons_cons] at hx
      rw [← hdfz] at hx
      exact ih x hx

lemma getCoef_ofList (v : List T) (i : Nat) : getCoef (ofList v) i = v.getD i 0 :=
  dfz_getD v i

lemma getCoef_ofConst (c : T) (i : Nat) :
    getCoef (ofConst c) i = if i = 0 then c else 0 := by
  by_cases hc : c = 0
  · cases i <;> simp [ofConst, getCoef, hc]
  · cases i <;> simp [ofConst, getCoef, hc]

lemma lastNonzeroIdx_none (l : List T) (h : lastNonzeroIdx l = none) :
    ∀ i, l.getD i 0 = 0 := by
  induction l with
  | nil => intro i; cases i <;> rfl
  | cons a rest ih =>
    intro i
    cases hrest : lastNonzeroIdx rest with
    | some j => simp [lastNonzeroIdx, hrest] at h
    | none =>
      by_cases ha : a = 0
      · cases i with
        | zero => simpa using ha
        | succ j => simpa using ih hrest j
      · simp [lastNonzeroIdx, hrest, ha] at h

lemma lastNonzeroIdx_get (l : List T) :
    ∀ i, lastNonzeroIdx l = some i → l.getD i 0 ≠ 0 := by
  induction l with
  | nil => intro i hi; simp [lastNonzeroIdx] at hi
  | cons a rest ih =>
    intro i hi
    cases hrest : lastNonzeroIdx rest with
    | some j =>
      simp only [lastNonzeroIdx, hrest] at hi
      cases hi
      simpa using ih j hrest
    | none =>
      by_cases ha : a = 0
      · simp [lastNonzeroIdx, hrest, ha] at hi
      · simp only [lastNonzeroIdx, hrest, ha, if_neg, not_false_iff] at hi
        cases hi
        simpa using ha

lemma lastNonzeroIdx_above (l : List T) :
    ∀ i, lastNonzeroIdx l = some i → ∀ j, i < j → l.getD j 0 = 0 := by
  induction l with
  | nil => intro i hi; simp [lastNonzeroIdx] at hi
  | cons a rest ih =>
    intro i hi j hij
    cases hrest : lastNonzeroIdx rest with
    | some k =>
      simp only [lastNonzeroIdx, hrest] at hi
      cases hi
      cases j with
      | zero => omega
      | succ j' => simpa using ih k hrest j' (by omega)
    | none =>
      by_cases ha : a = 0
      · simp [lastNonzeroIdx, hrest, ha] at hi
      · simp only [lastNonzeroIdx, hrest, ha, if_neg, not_false_iff] at hi
        cases hi
        cases j with
        | zero => omega
        | succ j' => simpa using lastNonzeroIdx_none rest hrest j'

lemma lastNonzeroIdx_lt_length (l : List T) :
    ∀ i, lastNonzeroIdx l = some i → i < l.length := by
  induction l with
  | nil => intro i hi; simp [lastNonzeroIdx] at hi
  | cons a rest ih =>
    intro i hi
    cases hrest : lastNonzeroIdx rest with
    | some k =>
      simp only [lastNonzeroIdx, hrest] at hi
      cases hi
      simpa using ih k hrest
    | none =>
      by_cases ha : a = 0
      · simp [lastNonzeroIdx, hrest, ha] at hi
      · simp only [lastNonzeroIdx, hrest, ha, if_neg, not_false_iff] at hi
        cases hi
        simp

end BasicLemmas

end PolyCpp

namespace PolyCpp

section DegreeLemmas

variable [CommRing T] [DecidableEq T]

lemma degree_eq_some (p : Poly T) (i : Nat) (h : lastNonzeroIdx p.coef = some i) :
    Degree p = (i : Int) := by
  unfold Degree
  rw [h]

lemma degree_eq_none (p : Poly T) (h : lastNonzeroIdx p.coef = none) :
    Degree p = -1 := by
  unfold Degree
  rw [h]

lemma getCoef_degree_ne_zero (p : Poly T) (h : 0 ≤ Degree p) :
    getCoef p (Degree p).toNat ≠ 0 := by
  cases hl : lastNonzeroIdx p.coef with
  | some i =>
    rw [degree_eq_some p i hl]
    have h2 : getCoef p i ≠ 0 := lastNonzeroIdx_get p.coef i hl
    simpa using h2
  | none =>
    rw [degree_eq_none p hl] at h
    omega

lemma getCoef_eq_zero_of_degree_lt (p : Poly T) (k : Nat) (h : Degree p < (k : Int)) :
    getCoef p k = 0 := by
  cases hl : lastNonzeroIdx p.coef with
  | some i =>
    rw [degree_eq_some p i hl] at h
    exact lastNonzeroIdx_above p.coef i hl k (by omega)
  | none => exact lastNonzeroIdx_none p.coef hl k

lemma degree_lt_of_forall (p : Poly T) (n : Nat) (h : ∀ k, n ≤ k → getCoef p k = 0) :
    Degree p < (n : Int) := by
  cases hl : lastNonzeroIdx p.coef with
  | some i =>
    rw [degree_eq_some p i hl]
    by_cases hi : n ≤ i
    · exact absurd (h i hi) (lastNonzeroIdx_get p.coef i hl)
    · omega
  | none =>
    rw [degree_eq_none p hl]
    omega

lemma neg_one_le_degree (p : Poly T) : -1 ≤ Degree p := by
  cases hl : lastNonzeroIdx p.coef with
  | some i => rw [degree_eq_some p i hl]; omega
  | none => rw [degree_eq_none p hl]

lemma degree_lt_length (p : Poly T) : Degree p < (p.coef.length : Int) := by
  cases hl : lastNonzeroIdx p.coef with
  | some i =>
    rw [degree_eq_some p i hl]
    simpa using lastNonzeroIdx_lt_length p.coef i hl
  | none =>
    rw [degree_eq_none p hl]
    omega

lemma degree_congr (p q : Poly T) (h : ∀ k, getCoef p k = getCoef q k) :
    Degree p = Degree q := by
  cases hp : lastNonzeroIdx p.coef with
  | some i =>
    cases hq : lastNonzeroIdx q.coef with
    | some j =>
      rw [degree_eq_some p i hp, degree_eq_some q j hq]
      rcases Nat.lt_trichotomy i j with hij | hij | hij
      · exact absurd ((h j).symm.trans (lastNonzeroIdx_above p.coef i hp j hij))
          (lastNonzeroIdx_get q.coef j hq)
      · simp [hij]
      · exact absurd ((h i).trans (lastNonzeroIdx_above q.coef j hq i hij))
          (lastNonzeroIdx_get p.coef i hp)
    | none =>
      exact absurd ((h i).trans (lastNonzeroIdx_none q.coef hq i))
        (lastNonzeroIdx_get p.coef i hp)
  | none =>
    cases hq : lastNonzeroIdx q.coef with
    | some j =>
      exact absurd ((h j).symm.trans (lastNonzeroIdx_none p.coef hp j))
        (lastNonzeroIdx_get q.coef j hq)
    | none =>
      rw [degree_eq_none p hp, degree_eq_none q hq]

lemma polyBEq_of_pointwise (p q : Poly T) (h : ∀ k, getCoef p k = getCoef q k) :
    polyBEq p q = true := by
  have hd : Degree p = Degree q := degree_congr p q h
  unfold polyBEq
  rw [if_neg (by simp [hd])]
  cases hdeg : Degree p with
  | ofNat n =>
    simp only [List.all_eq_true, decide_eq_true_eq]
    intro i _
    exact h i
  | negSucc n =>
    rfl

lemma degree_eq_neg_one_of_pointwise_zero (p : Poly T) (h : ∀ k, getCoef p k = 0) :
    Degree p = -1 := by
  cases hl : lastNonzeroIdx p.coef with
  | some i => exact absurd (h i) (lastNonzeroIdx_get p.coef i hl)
  | none => exact degree_eq_none p hl

end DegreeLemmas

section OpCoefLemmas

variable [CommRing T] [DecidableEq T]

lemma getD_map_range : ∀ (n : Nat) (f : Nat → T) (i : Nat),
    ((List.range n).map f).getD i 0 = if i < n then f i else 0 := by
  intro n
  induction n with
  | zero => intro f i; simp
  | succ m ih =>
    intro f i
    rw [List.range_succ_eq_map, List.map_cons, List.map_map]
    cases i with
    | zero => simp
    | succ j =>
      simp only [List.getD_cons_succ]
      rw [ih (f ∘ Nat.succ) j]
      by_cases hj : j < m
      · rw [if_pos hj, if_pos (by omega)]
        rfl
      · rw [if_neg hj, if_neg (by omega)]

lemma getCoef_add (p q : Poly T) (k : Nat) :
    getCoef (add p q) k = getCoef p k + getCoef q k := by
  unfold add
  rw [getCoef_ofList, getD_map_range]
  by_cases hk : k < max p.coef.length q.coef.length
  · rw [if_pos hk]
  · rw [if_neg hk]
    have h1 : getCoef p k = 0 := getD_out _ _ (by omega)
    have h2 : getCoef q k = 0 := getD_out _ _ (by omega)
    rw [h1, h2, add_zero]

lemma getCoef_sub (p q : Poly T) (k : Nat) :
    getCoef (sub p q) k = getCoef p k - getCoef q k := by
  unfold sub
  rw [getCoef_ofList, getD_map_range]
  by_cases hk : k < max p.coef.length q.coef.length
  · rw [if_pos hk]
  · rw [if_neg hk]
    have h1 : getCoef p k = 0 := getD_out _ _ (by omega)
    have h2 : getCoef q k = 0 := getD_out _ _ (by omega)
    rw [h1, h2, sub_zero]

lemma getD_replicate_zero : ∀ (m i : Nat), (List.replicate m (0:T)).getD i 0 = 0 := by
  intro m
  induction m with
  | zero => intro i; cases i <;> rfl
  | succ n ih =>
    intro i
    cases i with
    | zero => rfl
    | succ j => simpa using ih j

lemma getD_append_replicate (l : List T) (m : Nat) :
    ∀ i, (l ++ List.replicate m 0).getD i 0 = l.getD i 0 := by
  induction l with
  | nil =>
    intro i
    simpa using getD_replicate_zero m i
  | cons a rest ih =>
    intro i
    cases i with
    | zero => rfl
    | succ j => simpa using ih j

lemma getCoef_addAssign (p q : Poly T) (k : Nat) :
    getCoef (addAssign p q) k = getCoef p k + getCoef q k := by
  show (Delete_Front_Zeros _).getD k 0 = _
  rw [dfz_getD, getD_map_range]
  by_cases hk : k < max p.coef.length q.coef.length
  · rw [if_pos hk, getD_append_replicate]
    rfl
  · rw [if_neg hk]
    have h1 : getCoef p k = 0 := getD_out _ _ (by omega)
    have h2 : getCoef q k = 0 := getD_out _ _ (by omega)
    rw [h1, h2, add_zero]

lemma getCoef_subAssign (p q : Poly T) (k : Nat) :
    getCoef (subAssign p q) k = getCoef p k - getCoef q k := by
  show (Delete_Front_Zeros _).getD k 0 = _
  rw [dfz_getD, getD_map_range]
  by_cases hk : k < max p.coef.length q.coef.length
  · rw [if_pos hk, getD_append_replicate]
    rfl
  · rw [if_neg hk]
    have h1 : getCoef p k = 0 := getD_out _ _ (by omega)
    have h2 : getCoef q k = 0 := getD_out _ _ (by omega)
    rw [h1, h2, sub_zero]

lemma addAssign_eq_add (p q : Poly T) : addAssign p q = add p q := by
  unfold addAssign add ofList
  have hfun : (fun i => (p.coef ++ List.replicate
        (max p.coef.length q.coef.length - p.coef.length) 0).getD i 0 + getCoef q i)
      = fun i => getCoef p i + getCoef q i := by
    funext i
    rw [getD_append_replicate]
    rfl
  rw [hfun]

lemma subAssign_eq_sub (p q : Poly T) : subAssign p q = sub p q := by
  unfold subAssign sub ofList
  have hfun : (fun i => (p.coef ++ List.replicate
        (max p.coef.length q.coef.length - p.coef.length) 0).getD i 0 - getCoef q i)
      = fun i => getCoef p i - getCoef q i := by
    funext i
    rw [getD_append_replicate]
    rfl
  rw [hfun]

lemma mulAssign_eq_mul (p q : Poly T) : mulAssign p q = mul p q := rfl

end OpCoefLemmas

end PolyCpp

namespace PolyCpp

section MulLemmas

variable [CommRing T] [DecidableEq T]

lemma sum_map_range {M : Type} [AddCommMonoid M] (f : Nat → M) :
    ∀ n, ((List.range n).map f).sum = ∑ i in Finset.range n, f i := by
  intro n
  induction n with
  | zero => simp
  | succ m ih =>
    rw [List.range_succ, List.map_append, List.sum_append, Finset.sum_range_succ, ih]
    simp

lemma conv_eq (a b : List T) (k : Nat) :
    convCoef a b k = ∑ i in Finset.range (k + 1), a.getD i 0 * b.getD (k - i) 0 := by
  unfold convCoef
  rw [sum_map_range]
  have hinner : ∀ i, ((List.range b.length).map fun j =>
      if i + j = k then a.getD i 0 * b.getD j 0 else 0).sum
      = if i < k + 1 then a.getD i 0 * b.getD (k - i) 0 else 0 := by
    intro i
    rw [sum_map_range]
    by_cases hik : i ≤ k
    · rw [if_pos (by omega)]
      have hcond : ∀ j : Nat, (i + j = k) ↔ (j = k - i) := by omega
      calc ∑ j in Finset.range b.length, (if i + j = k then a.getD i 0 * b.getD j 0 else 0)
          = ∑ j in Finset.range b.length,
              (if j = k - i then a.getD i 0 * b.getD j 0 else 0) := by
            apply Finset.sum_congr rfl
            intro j _
            simp only [hcond j]
        _ = if k - i ∈ Finset.range b.length then a.getD i 0 * b.getD (k - i) 0 else 0 :=
            Finset.sum_ite_eq' (Finset.range b.length) (k - i)
              (fun j => a.getD i 0 * b.getD j 0)
        _ = a.getD i 0 * b.getD (k - i) 0 := by
            by_cases hb : k - i < b.length
            · rw [if_pos (by simpa using hb)]
            · rw [if_neg (by simpa using hb), getD_out b _ (by omega), mul_zero]
    · rw [if_neg (by omega)]
      apply Finset.sum_eq_zero
      intro j _
      rw [if_neg (by omega)]
  simp only [hinner]
  have hmem : ∀ i ∈ Finset.range a.length,
      (if i < k + 1 then a.getD i 0 * b.getD (k - i) 0 else 0)
        = (if i ∈ Finset.range (k + 1) then a.getD i 0 * b.getD (k - i) 0 else 0) := by
    intro i _
    simp [Finset.mem_range]
  rw [Finset.sum_congr rfl hmem, Finset.sum_ite_mem]
  have hcap : Finset.range a.length ∩ Finset.range (k + 1)
      = Finset.range (min a.length (k + 1)) := by
    ext x
    simp only [Finset.mem_inter, Finset.mem_range, lt_min_iff]
  rw [hcap]
  apply Finset.sum_subset
  · exact Finset.range_subset.mpr (min_le_right _ _)
  · intro i hi hni
    simp only [Finset.mem_range, lt_min_iff, not_and_or, not_lt] at hi hni
    have hia : a.length ≤ i := by omega
    rw [getD_out a i hia, zero_mul]

lemma getCoef_mul (p q : Poly T) (k : Nat) :
    getCoef (mul p q) k = ∑ i in Finset.range (k + 1), getCoef p i * getCoef q (k - i) := by
  unfold mul
  rw [getCoef_ofList, getD_map_range]
  by_cases hk : k < p.coef.length + q.coef.length
  · rw [if_pos hk, conv_eq]
    rfl
  · rw [if_neg hk]
    symm
    apply Finset.sum_eq_zero
    intro i hi
    simp only [Finset.mem_range] at hi
    by_cases hip : i < p.coef.length
    · have h1 : getCoef q (k - i) = 0 := getD_out _ _ (by omega)
      rw [h1, mul_zero]
    · have h1 : getCoef p i = 0 := getD_out _ _ (by omega)
      rw [h1, zero_mul]

lemma getCoef_mul_comm (p q : Poly T) (k : Nat) :
    getCoef (mul p q) k = getCoef (mul q p) k := by
  rw [getCoef_mul, getCoef_mul]
  have h := Finset.sum_range_reflect (fun j => getCoef q j * getCoef p (k - j)) (k + 1)
  conv_rhs => rw [← h]
  apply Finset.sum_congr rfl
  intro i hi
  simp only [Finset.mem_range] at hi
  have h1 : k + 1 - 1 - i = k - i := by omega
  have h2 : k - (k - i) = i := by omega
  rw [h1, h2, mul_comm]

lemma getD_replicate_append (m : Nat) (t : T) :
    ∀ j, (List.replicate m 0 ++ [t]).getD j 0 = if j = m then t else 0 := by
  induction m with
  | zero =>
    intro j
    cases j with
    | zero => rfl
    | succ i => simp
  | succ n ih =>
    intro j
    cases j with
    | zero => simp [List.replicate_succ]
    | succ i =>
      simp only [List.replicate_succ, List.cons_append, List.getD_cons_succ]
      rw [ih i]
      by_cases hi : i = n
      · rw [if_pos hi, if_pos (by omega)]
      · rw [if_neg hi, if_neg (by omega)]

end MulLemmas

end PolyCpp

namespace PolyCpp

section CanonicalLemmas

variable [CommRing T] [DecidableEq T]

lemma getLast?_getD : ∀ (m : List T) (x : T), m.getLast? = some x →
    m.getD (m.length - 1) 0 = x := by
  intro m
  induction m with
  | nil => intro x hx; simp at hx
  | cons a rest ih =>
    intro x hx
    cases rest with
    | nil =>
      simp only [List.getLast?_singleton, Option.some.injEq] at hx
      simpa using hx
    | cons b t =>
      rw [List.getLast?_cons_cons] at hx
      have h2 := ih x hx
      simpa using h2

lemma getLast?_none_nil : ∀ (m : List T), m.getLast? = none → m = [] := by
  intro m h
  cases m with
  | nil => rfl
  | cons a t =>
    exfalso
    induction t generalizing a with
    | nil => simp at h
    | cons b t' ih =>
      rw [List.getLast?_cons_cons] at h
      exact ih b h

lemma canonical_mk_dfz (l : List T) : Canonical (⟨Delete_Front_Zeros l⟩ : Poly T) := by
  constructor
  · intro x hx
    exact dfz_getLast l x hx
  · intro hdeg
    cases hll : (Delete_Front_Zeros l).getLast? with
    | none => exact getLast?_none_nil _ hll
    | some x =>
      exfalso
      have hnone : lastNonzeroIdx (Delete_Front_Zeros l) = none := by
        cases hl2 : lastNonzeroIdx (Delete_Front_Zeros l) with
        | some i =>
          have h3 := degree_eq_some (⟨Delete_Front_Zeros l⟩ : Poly T) i hl2
          rw [hdeg] at h3
          omega
        | none => rfl
      have hz := lastNonzeroIdx_none _ hnone
      have hx0 : (Delete_Front_Zeros l).getD ((Delete_Front_Zeros l).length - 1) 0 = x :=
        getLast?_getD _ x hll
      exact dfz_getLast l x hll (by rw [← hx0]; exact hz _)

lemma canonical_ofList (v : List T) : Canonical (ofList v) := canonical_mk_dfz v

lemma canonical_ofIter (v : List T) : Canonical (ofIter v) := canonical_mk_dfz v

lemma canonical_ofConst (c : T) : Canonical (ofConst c) := by
  unfold ofConst
  by_cases hc : c = 0
  · rw [if_pos hc]
    constructor
    · intro x hx
      simp at hx
    · intro _
      rfl
  · rw [if_neg hc]
    constructor
    · intro x hx
      simp only [List.getLast?_singleton, Option.some.injEq] at hx
      rw [← hx]
      exact hc
    · intro hdeg
      exfalso
      have h1 : lastNonzeroIdx [c] = some 0 := by simp [lastNonzeroIdx, hc]
      have h2 := degree_eq_some (⟨[c]⟩ : Poly T) 0 h1
      rw [hdeg] at h2
      omega

lemma canonical_add (p q : Poly T) : Canonical (add p q) := canonical_mk_dfz _

lemma canonical_sub (p q : Poly T) : Canonical (sub p q) := canonical_mk_dfz _

lemma canonical_mul (p q : Poly T) : Canonical (mul p q) := canonical_mk_dfz _

lemma canonical_addAssign (p q : Poly T) : Canonical (addAssign p q) := canonical_mk_dfz _

lemma canonical_subAssign (p q : Poly T) : Canonical (subAssign p q) := canonical_mk_dfz _

lemma canonical_mulAssign (p q : Poly T) : Canonical (mulAssign p q) := canonical_mk_dfz _

lemma canonical_foldl {α : Type} (f : Poly T → α → Poly T)
    (hf : ∀ acc x, Canonical acc → Canonical (f acc x)) :
    ∀ (l : List α) (init : Poly T), Canonical init → Canonical (l.foldl f init) := by
  intro l
  induction l with
  | nil => intro init h; exact h
  | cons a t ih => intro init h; exact ih (f init a) (hf init a h)

lemma canonical_comp (p q : Poly T) : Canonical (comp p q) := by
  unfold comp
  apply canonical_foldl
  · intro acc i hacc
    by_cases hi : p.coef.getD i 0 ≠ 0
    · rw [if_pos hi]
      exact canonical_addAssign _ _
    · rw [if_neg hi]
      exact hacc
  · exact canonical_ofConst 0

end CanonicalLemmas

section CanonicalFieldLemmas

variable [Field T] [DecidableEq T]

lemma canonical_div (a b : Poly T) : Canonical (div a b) := canonical_mk_dfz _

lemma canonical_pmod (a b : Poly T) : Canonical (pmod a b) := canonical_mk_dfz _

lemma canonical_gcdOp (a b : Poly T) : Canonical (gcdOp a b) := by
  unfold gcdOp
  dsimp only
  split <;> split
  all_goals first
    | exact canonical_ofConst 1
    | exact canonical_mk_dfz _

end CanonicalFieldLemmas

end PolyCpp

namespace PolyCpp

section MonomialLemmas

variable [CommRing T] [DecidableEq T]

lemma getCoef_monomial (m : Nat) (t : T) (j : Nat) :
    getCoef (ofList (List.replicate m 0 ++ [t])) j = if j = m then t else 0 := by
  rw [getCoef_ofList]
  exact getD_replicate_append m t j

lemma getCoef_mul_monomial (b : Poly T) (m : Nat) (t : T) (k : Nat) :
    getCoef (mul b (ofList (List.replicate m 0 ++ [t]))) k
      = if m ≤ k then getCoef b (k - m) * t else 0 := by
  rw [getCoef_mul]
  by_cases hmk : m ≤ k
  · rw [if_pos hmk]
    calc ∑ i in Finset.range (k + 1),
          getCoef b i * getCoef (ofList (List.replicate m 0 ++ [t])) (k - i)
        = ∑ i in Finset.range (k + 1), (if i = k - m then getCoef b i * t else 0) := by
          apply Finset.sum_congr rfl
          intro i hi
          simp only [Finset.mem_range] at hi
          rw [getCoef_monomial]
          by_cases hik : i = k - m
          · rw [if_pos (by omega), if_pos hik]
          · rw [if_neg (by omega), if_neg hik, mul_zero]
      _ = if k - m ∈ Finset.range (k + 1) then getCoef b (k - m) * t else 0 :=
          Finset.sum_ite_eq' (Finset.range (k + 1)) (k - m) (fun i => getCoef b i * t)
      _ = getCoef b (k - m) * t := by
          rw [if_pos (by simp only [Finset.mem_range]; omega)]
  · rw [if_neg hmk]
    apply Finset.sum_eq_zero
    intro i hi
    simp only [Finset.mem_range] at hi
    rw [getCoef_monomial, if_neg (by omega), mul_zero]

lemma getCoef_mul_congr_left (p p' q : Poly T) (h : ∀ i, getCoef p i = getCoef p' i)
    (k : Nat) : getCoef (mul p q) k = getCoef (mul p' q) k := by
  rw [getCoef_mul, getCoef_mul]
  apply Finset.sum_congr rfl
  intro i _
  rw [h i]

lemma getD_set_lt (r : List T) :
    ∀ (m : Nat) (v : T), m < r.length →
      ∀ j, (r.set m v).getD j 0 = if j = m then v else r.getD j 0 := by
  induction r with
  | nil => intro m v hm; simp at hm
  | cons a t ih =>
    intro m v hm j
    cases m with
    | zero =>
      cases j with
      | zero => rfl
      | succ i => simp
    | succ m' =>
      cases j with
      | zero => simp
      | succ i =>
        simp only [List.set_cons_succ, List.getD_cons_succ]
        rw [ih m' v (by simpa using hm) i]
        by_cases him : i = m'
        · rw [if_pos him, if_pos (by omega)]
        · rw [if_neg him, if_neg (by omega)]

end MonomialLemmas

section DivisionLemmas

variable [Field T] [DecidableEq T]

lemma getCoef_divStep (b f : Poly T) (hb : 0 ≤ Degree b) (hf : Degree b ≤ Degree f) :
    ∀ k : Nat, Degree f ≤ (k : Int) → getCoef (divStep b f) k = 0 := by
  intro k hk
  have hf0 : 0 ≤ Degree f := le_trans hb hf
  have hgetIf : getI f (Degree f) = getCoef f (Degree f).toNat := by
    unfold getI
    rw [if_pos hf0]
  have hgetIb : getI b (Degree b) = getCoef b (Degree b).toNat := by
    unfold getI
    rw [if_pos hb]
  unfold divStep
  rw [getCoef_sub, getCoef_mul_monomial, hgetIf, hgetIb]
  rw [if_pos (by omega)]
  by_cases hkf : (k : Int) = Degree f
  · have hki : k - (Degree f - Degree b).toNat = (Degree b).toNat := by omega
    have hbod : getCoef b (Degree b).toNat ≠ 0 := getCoef_degree_ne_zero b hb
    have hkd : k = (Degree f).toNat := by omega
    rw [hki, mul_comm, div_mul_cancel₀ _ hbod, hkd, sub_self]
  · have h1 : getCoef f k = 0 := getCoef_eq_zero_of_degree_lt f k (by omega)
    have h2 : getCoef b (k - (Degree f - Degree b).toNat) = 0 :=
      getCoef_eq_zero_of_degree_lt b _ (by omega)
    rw [h1, h2, zero_mul, sub_zero]

lemma divStep_degree_lt (b f : Poly T) (hb : 0 ≤ Degree b) (hf : Degree b ≤ Degree f) :
    Degree (divStep b f) < Degree f := by
  have hf0 : 0 ≤ Degree f := le_trans hb hf
  have h := degree_lt_of_forall (divStep b f) (Degree f).toNat
    (fun k hk => getCoef_divStep b f hb hf k (by omega))
  omega

lemma divLoopFuel_degree_lt (b : Poly T) (hb : 0 ≤ Degree b) :
    ∀ (fuel : Nat) (f : Poly T) (r : List T), Degree f < (fuel : Int) →
      Degree (divLoopFuel fuel f r b).1 < Degree b := by
  intro fuel
  induction fuel with
  | zero =>
    intro f r hf
    simp only [divLoopFuel]
    omega
  | succ n ih =>
    intro f r hf
    simp only [divLoopFuel]
    by_cases hcond : Degree b ≤ Degree f
    · rw [if_pos hcond]
      apply ih
      have := divStep_degree_lt b f hb hcond
      omega
    · rw [if_neg hcond]
      show Degree f < Degree b
      omega

lemma divLoopFuel_inv (b : Poly T) (hb : 0 ≤ Degree b) :
    ∀ (fuel : Nat) (f : Poly T) (r : List T), Degree f < (r.length : Int) →
      (divLoopFuel fuel f r b).2.length = r.length ∧
      ∀ k, getCoef (divLoopFuel fuel f r b).1 k
            + getCoef (mul (⟨(divLoopFuel fuel f r b).2⟩ : Poly T) b) k
          = getCoef f k + getCoef (mul (⟨r⟩ : Poly T) b) k := by
  intro fuel
  induction fuel with
  | zero =>
    intro f r hf
    simp only [divLoopFuel]
    exact ⟨trivial, fun _ => trivial⟩
  | succ n ih =>
    intro f r hf
    simp only [divLoopFuel]
    by_cases hcond : Degree b ≤ Degree f
    · rw [if_pos hcond]
      have hf0 : 0 ≤ Degree f := le_trans hb hcond
      have hmlt : (Degree f - Degree b).toNat < r.length := by omega
      have hlen : (r.set (Degree f - Degree b).toNat
          (r.getD (Degree f - Degree b).toNat 0
            + getI f (Degree f) / getI b (Degree b))).length = r.length := by
        simp
      obtain ⟨ihlen, ihpt⟩ := ih (divStep b f)
        (r.set (Degree f - Degree b).toNat
          (r.getD (Degree f - Degree b).toNat 0
            + getI f (Degree f) / getI b (Degree b)))
        (by rw [hlen]; have := divStep_degree_lt b f hb hcond; omega)
      refine ⟨by rw [ihlen, hlen], ?_⟩
      intro k
      rw [ihpt k]
      have hr'coef : ∀ j, getCoef (⟨r.set (Degree f - Degree b).toNat
            (r.getD (Degree f - Degree b).toNat 0
              + getI f (Degree f) / getI b (Degree b))⟩ : Poly T) j
          = getCoef (⟨r⟩ : Poly T) j
            + getCoef (ofList (List.replicate (Degree f - Degree b).toNat 0
                ++ [getI f (Degree f) / getI b (Degree b)])) j := by
        intro j
        show (r.set _ _).getD j 0 = r.getD j 0 + _
        rw [getD_set_lt r _ _ hmlt j, getCoef_monomial]
        by_cases hj : j = (Degree f - Degree b).toNat
        · rw [if_pos hj, if_pos hj, hj]
        · rw [if_neg hj, if_neg hj, add_zero]
      have hmulr' : getCoef (mul (⟨r.set (Degree f - Degree b).toNat
            (r.getD (Degree f - Degree b).toNat 0
              + getI f (Degree f) / getI b (Degree b))⟩ : Poly T) b) k
          = getCoef (mul (⟨r⟩ : Poly T) b) k
            + getCoef (mul (ofList (List.replicate (Degree f - Degree b).toNat 0
                ++ [getI f (Degree f) / getI b (Degree b)])) b) k := by
        rw [getCoef_mul, getCoef_mul, getCoef_mul, ← Finset.sum_add_distrib]
        apply Finset.sum_congr rfl
        intro i _
        rw [hr'coef i, add_mul]
      have hstep : getCoef (divStep b f) k
          = getCoef f k
            - getCoef (mul b (ofList (List.replicate (Degree f - Degree b).toNat 0
                ++ [getI f (Degree f) / getI b (Degree b)]))) k := by
        unfold divStep
        rw [getCoef_sub]
      have hcomm := getCoef_mul_comm b
        (ofList (List.replicate (Degree f - Degree b).toNat 0
          ++ [getI f (Degree f) / getI b (Degree b)])) k
      rw [hmulr', hstep, hcomm]
      ring
    · rw [if_neg hcond]
      exact ⟨rfl, fun k => rfl⟩

lemma getCoef_pmod (a b : Poly T) (hb : 0 ≤ Degree b) (k : Nat) :
    getCoef (pmod a b) k
      = getCoef (divLoopFuel (a.coef.length + 1) a (List.replicate a.coef.length 0) b).1 k := by
  have hlena : ((List.replicate a.coef.length (0:T)).length : Int) = (a.coef.length : Int) := by
    simp
  obtain ⟨hlen, hpt⟩ := divLoopFuel_inv b hb (a.coef.length + 1) a
    (List.replicate a.coef.length 0) (by rw [hlena]; exact degree_lt_length a)
  unfold pmod div
  rw [getCoef_sub]
  rw [getCoef_mul_congr_left
    (ofList (divLoopFuel (a.coef.length + 1) a (List.replicate a.coef.length 0) b).2)
    (⟨(divLoopFuel (a.coef.length + 1) a (List.replicate a.coef.length 0) b).2⟩ : Poly T) b
    (fun i => getCoef_ofList _ i) k]
  have hmul0 : getCoef (mul (⟨List.replicate a.coef.length (0:T)⟩ : Poly T) b) k = 0 := by
    rw [getCoef_mul]
    apply Finset.sum_eq_zero
    intro i _
    have hz : getCoef (⟨List.replicate a.coef.length (0:T)⟩ : Poly T) i = 0 :=
      getD_replicate_zero _ i
    rw [hz, zero_mul]
  have hinv := hpt k
  rw [hmul0, add_zero] at hinv
  rw [← hinv]
  ring

lemma pmod_degree_lt (a b : Poly T) (hb : 0 ≤ Degree b) : Degree (pmod a b) < Degree b := by
  have hd := degree_congr (pmod a b)
    (divLoopFuel (a.coef.length + 1) a (List.replicate a.coef.length 0) b).1
    (getCoef_pmod a b hb)
  rw [hd]
  apply divLoopFuel_degree_lt b hb
  have := degree_lt_length a
  omega

end DivisionLemmas

end PolyCpp

namespace PolyCpp

section CompLemmas

variable [CommRing T] [DecidableEq T]

lemma getCoef_zero_power (q : Poly T) :
    ∀ (i : Nat) (z : Poly T), (∀ k, getCoef z k = 0) →
      ∀ k, getCoef ((List.range i).foldl (fun tmp _ => mul tmp q) z) k = 0 := by
  intro i
  induction i with
  | zero => intro z hz k; exact hz k
  | succ n ih =>
    intro z hz k
    rw [List.range_succ, List.foldl_append, List.foldl_cons, List.foldl_nil]
    rw [getCoef_mul]
    apply Finset.sum_eq_zero
    intro j _
    rw [ih z hz j, zero_mul]

lemma foldl_comp_pointwise (q : Poly T) (c : Nat → T) :
    ∀ (l : List Nat) (acc acc' : Poly T), (∀ k, getCoef acc k = getCoef acc' k) →
      ∀ k, getCoef (l.foldl (fun a i => if c i ≠ 0 then
              addAssign a ((List.range i).foldl (fun tmp _ => mulAssign tmp q)
                (ofConst (c i)))
            else a) acc) k
        = getCoef (l.foldl (fun a i =>
              add a ((List.range i).foldl (fun tmp _ => mul tmp q) (ofConst (c i)))) acc') k := by
  intro l
  induction l with
  | nil => intro acc acc' h k; exact h k
  | cons i t ih =>
    intro acc acc' h k
    simp only [List.foldl_cons]
    apply ih
    intro k2
    by_cases hc : c i ≠ 0
    · rw [if_pos hc, getCoef_addAssign, getCoef_add, h k2]
      rfl
    · rw [if_neg hc, getCoef_add, h k2]
      have hci : c i = 0 := not_not.mp hc
      have hz : ∀ k3, getCoef ((List.range i).foldl (fun tmp _ => mul tmp q)
          (ofConst (c i))) k3 = 0 := by
        apply getCoef_zero_power
        intro k3
        rw [getCoef_ofConst, hci]
        split <;> rfl
      rw [hz k2, add_zero]

lemma comp_pointwise (p q : Poly T) (k : Nat) :
    getCoef (comp p q) k = getCoef (compAll p q) k := by
  unfold comp compAll
  exact foldl_comp_pointwise q (fun i => p.coef.getD i 0) (List.range p.coef.length)
    (ofConst 0) (ofConst 0) (fun _ => rfl) k

end CompLemmas

end PolyCpp

namespace PolyCpp

section GcdLemmas

variable [Field T] [DecidableEq T]

lemma degree_neg_one_all_zero (p : Poly T) (h : Degree p = -1) :
    ∀ k, getCoef p k = 0 := by
  intro k
  cases hl : lastNonzeroIdx p.coef with
  | some i =>
    have h2 := degree_eq_some p i hl
    rw [h] at h2
    omega
  | none => exact lastNonzeroIdx_none p.coef hl k

lemma le_degree_of_getCoef_ne (p : Poly T) (k : Nat) (h : getCoef p k ≠ 0) :
    (k : Int) ≤ Degree p := by
  by_contra hlt
  exact h (getCoef_eq_zero_of_degree_lt p k (by omega))

lemma degree_ofConst_ne (c : T) (hc : c ≠ 0) : Degree (ofConst c) = 0 := by
  unfold ofConst
  rw [if_neg hc]
  exact degree_eq_some _ 0 (by simp [lastNonzeroIdx, hc])

lemma ofConst_eq_ofList (c : T) (hc : c ≠ 0) : ofConst c = ofList [c] := by
  unfold ofConst ofList Delete_Front_Zeros
  rw [if_neg hc]
  simp [Delete_Front_Zeros, hc]

lemma div_const_spec (f : Poly T) (c : T) (hc : c ≠ 0) :
    ∀ k, getCoef (div f (ofConst c)) k * c = getCoef f k := by
  intro k
  have hdegb : Degree (ofConst c) = 0 := degree_ofConst_ne c hc
  have hb : (0:Int) ≤ Degree (ofConst c) := by omega
  have hrem : Degree (pmod f (ofConst c)) = -1 := by
    have h1 := pmod_degree_lt f (ofConst c) hb
    have h2 := neg_one_le_degree (pmod f (ofConst c))
    omega
  have hz := degree_neg_one_all_zero _ hrem k
  unfold pmod at hz
  rw [getCoef_sub] at hz
  have hmul : getCoef (mul (div f (ofConst c)) (ofConst c)) k
      = getCoef (div f (ofConst c)) k * c := by
    rw [ofConst_eq_ofList c hc,
      show (([c] : List T)) = List.replicate 0 0 ++ [c] from rfl,
      getCoef_mul_monomial]
    rw [if_pos (by omega)]
    simp
  rw [hmul] at hz
  have := sub_eq_zero.mp hz
  exact this.symm

lemma monic_div_leading (f : Poly T) (hf : 0 ≤ Degree f) :
    getCoef (div f (ofConst (getCoef f (Degree f).toNat)))
        (Degree (div f (ofConst (getCoef f (Degree f).toNat)))).toNat = 1 ∧
      Degree (div f (ofConst (getCoef f (Degree f).toNat))) = Degree f := by
  have hL : getCoef f (Degree f).toNat ≠ 0 := getCoef_degree_ne_zero f hf
  have hspec := div_const_spec f (getCoef f (Degree f).toNat) hL
  have hlead : getCoef (div f (ofConst (getCoef f (Degree f).toNat))) (Degree f).toNat = 1 := by
    have h1 := hspec (Degree f).toNat
    field_simp at h1
    exact h1
  have habove : ∀ k, (Degree f).toNat + 1 ≤ k →
      getCoef (div f (ofConst (getCoef f (Degree f).toNat))) k = 0 := by
    intro k hk
    have h1 := hspec k
    have h2 : getCoef f k = 0 := getCoef_eq_zero_of_degree_lt f k (by omega)
    rw [h2] at h1
    rcases mul_eq_zero.mp h1 with h3 | h3
    · exact h3
    · exact absurd h3 hL
  have hup := degree_lt_of_forall _ ((Degree f).toNat + 1) habove
  have hdown := le_degree_of_getCoef_ne _ (Degree f).toNat (by rw [hlead]; exact one_ne_zero)
  have hdeg : Degree (div f (ofConst (getCoef f (Degree f).toNat))) = Degree f := by omega
  exact ⟨by rw [hdeg]; exact hlead, hdeg⟩

lemma gcdLoopFuel_first_nonneg :
    ∀ (fuel : Nat) (f s : Poly T), 0 ≤ Degree f →
      0 ≤ Degree (gcdLoopFuel fuel f s).1 := by
  intro fuel
  induction fuel with
  | zero => intro f s hf; exact hf
  | succ n ih =>
    intro f s hf
    simp only [gcdLoopFuel]
    by_cases hs : 0 < Degree s
    · rw [if_pos hs]
      exact ih s (pmod f s) (by omega)
    · rw [if_neg hs]
      exact hf

lemma gcd_monic (a b : Poly T) (h : ¬(Degree a = -1 ∧ Degree b = -1)) :
    getCoef (gcdOp a b) (Degree (gcdOp a b)).toNat = 1 := by
  have hda := neg_one_le_degree a
  have hdb := neg_one_le_degree b
  unfold gcdOp
  dsimp only
  by_cases hswap : Degree a < Degree b
  · rw [if_pos hswap]
    have hf0 : 0 ≤ Degree b := by omega
    have hout : 0 ≤ Degree (gcdLoopFuel (a.coef.length + b.coef.length + 1) (b, a).1 (b, a).2).1 :=
      gcdLoopFuel_first_nonneg _ (b, a).1 (b, a).2 hf0
    by_cases hne : polyNe
        (gcdLoopFuel (a.coef.length + b.coef.length + 1) (b, a).1 (b, a).2).2 (ofConst 0) = true
    · rw [if_pos hne]
      have h1 : Degree (ofConst (1:T)) = 0 := degree_ofConst_ne 1 one_ne_zero
      rw [h1]
      have : getCoef (ofConst (1:T)) 0 = 1 := by
        rw [getCoef_ofConst]
        simp
      simpa using this
    · rw [if_neg hne]
      have hgetI : getI (gcdLoopFuel (a.coef.length + b.coef.length + 1) (b, a).1 (b, a).2).1
            (Degree (gcdLoopFuel (a.coef.length + b.coef.length + 1) (b, a).1 (b, a).2).1)
          = getCoef (gcdLoopFuel (a.coef.length + b.coef.length + 1) (b, a).1 (b, a).2).1
            (Degree (gcdLoopFuel (a.coef.length + b.coef.length + 1) (b, a).1 (b, a).2).1).toNat := by
        unfold getI
        rw [if_pos hout]
      rw [hgetI]
      exact (monic_div_leading _ hout).1
  · rw [if_neg hswap]
    have hf0 : 0 ≤ Degree a := by
      by_contra hlt
      exact h (by omega)
    have hout : 0 ≤ Degree (gcdLoopFuel (a.coef.length + b.coef.length + 1) (a, b).1 (a, b).2).1 :=
      gcdLoopFuel_first_nonneg _ (a, b).1 (a, b).2 hf0
    by_cases hne : polyNe
        (gcdLoopFuel (a.coef.length + b.coef.length + 1) (a, b).1 (a, b).2).2 (ofConst 0) = true
    · rw [if_pos hne]
      have h1 : Degree (ofConst (1:T)) = 0 := degree_ofConst_ne 1 one_ne_zero
      rw [h1]
      have : getCoef (ofConst (1:T)) 0 = 1 := by
        rw [getCoef_ofConst]
        simp
      simpa using this
    · rw [if_neg hne]
      have hgetI : getI (gcdLoopFuel (a.coef.length + b.coef.length + 1) (a, b).1 (a, b).2).1
            (Degree (gcdLoopFuel (a.coef.length + b.coef.length + 1) (a, b).1 (a, b).2).1)
          = getCoef (gcdLoopFuel (a.coef.length + b.coef.length + 1) (a, b).1 (a, b).2).1
            (Degree (gcdLoopFuel (a.coef.length + b.coef.length + 1) (a, b).1 (a, b).2).1).toNat := by
        unfold getI
        rw [if_pos hout]
      rw [hgetI]
      exact (monic_div_leading _ hout).1

end GcdLemmas

/-- Claim C1: every Polynomial value produced by any public constructor
    (from a coefficient vector, a single constant, or an iterator pair) or
    produced or left behind by any operation (+, -, *, /, %, GCD,
    composition, +=, -=, *=) is in canonical form: the stored vector has no
    trailing zero (its last stored element, when present, is non-zero), and
    the zero polynomial is stored as the empty vector. -/
theorem claim_C1 {T : Type} [Field T] [DecidableEq T] :
    (∀ v : List T, Canonical (ofList v)) ∧
    (∀ c : T, Canonical (ofConst c)) ∧
    (∀ v : List T, Canonical (ofIter v)) ∧
    (∀ a b : Poly T,
      Canonical (add a b) ∧ Canonical (sub a b) ∧ Canonical (mul a b) ∧
      Canonical (addAssign a b) ∧ Canonical (subAssign a b) ∧ Canonical (mulAssign a b) ∧
      Canonical (div a b) ∧ Canonical (pmod a b) ∧ Canonical (gcdOp a b) ∧
      Canonical (comp a b)) :=
  ⟨canonical_ofList, canonical_ofConst, canonical_ofIter, fun a b =>
    ⟨canonical_add a b, canonical_sub a b, canonical_mul a b, canonical_addAssign a b,
     canonical_subAssign a b, canonical_mulAssign a b, canonical_div a b,
     canonical_pmod a b, canonical_gcdOp a b, canonical_comp a b⟩⟩

/-- Claim C2: for every pair of polynomials with a non-zero divisor, over an
    exact field, `A == (A / B) * B + (A % B)` holds under the class's own
    equality operator, and the remainder operator is literally computed as
    `A - (A / B) * B`. -/
theorem claim_C2 {T : Type} [Field T] [DecidableEq T] (a b : Poly T) (hb : 0 ≤ Degree b) :
    polyBEq a (add (mul (div a b) b) (pmod a b)) = true ∧
    pmod a b = sub a (mul (div a b) b) := by
  refine ⟨?_, rfl⟩
  apply polyBEq_of_pointwise
  intro k
  rw [getCoef_add]
  unfold pmod
  rw [getCoef_sub]
  ring

theorem claim_C2_witness :
    (0 ≤ Degree (ofList [(1:F5), 1])) ∧
    polyBEq (ofList [(1:F5), 0, 1])
      (add (mul (div (ofList [(1:F5), 0, 1]) (ofList [(1:F5), 1])) (ofList [(1:F5), 1]))
        (pmod (ofList [(1:F5), 0, 1]) (ofList [(1:F5), 1]))) = true :=
  ⟨by decide, (claim_C2 (ofList [(1:F5), 0, 1]) (ofList [(1:F5), 1]) (by decide)).1⟩

/-- Claim C3: for inputs not both zero over an exact field, the GCD
    operator (swap so the first degree dominates, Euclidean loop, constant-1
    in the coprime case, otherwise the last non-zero remainder divided by
    its own leading coefficient) always returns a monic result; in
    particular GCD(x, x+1) is the constant 1 and GCD((x-1)*(x+1), x-1) is
    x-1, computed here over the exact field F5. -/
theorem claim_C3 :
    polyBEq (gcdOp (ofList [(0:F5), 1]) (ofList [(1:F5), 1])) (ofConst 1) = true ∧
    polyBEq (gcdOp (mul (ofList [(-1:F5), 1]) (ofList [(1:F5), 1])) (ofList [(-1:F5), 1]))
      (ofList [(-1:F5), 1]) = true ∧
    (∀ (T : Type) [Field T] [DecidableEq T] (a b : Poly T),
      ¬(Degree a = -1 ∧ Degree b = -1) →
        getCoef (gcdOp a b) (Degree (gcdOp a b)).toNat = 1) := by
  refine ⟨by decide, by decide, ?_⟩
  intro T _ _ a b h
  exact gcd_monic a b h

theorem claim_C3_witness :
    (¬(Degree (ofList [(0:F5), 1]) = -1 ∧ Degree (ofList [(1:F5), 1]) = -1)) ∧
    getCoef (gcdOp (ofList [(0:F5), 1]) (ofList [(1:F5), 1]))
      (Degree (gcdOp (ofList [(0:F5), 1]) (ofList [(1:F5), 1]))).toNat = 1 :=
  ⟨by decide, claim_C3.2.2 F5 (ofList [(0:F5), 1]) (ofList [(1:F5), 1]) (by decide)⟩

/-- Claim C4: for a non-zero divisor over an exact field, each pass of the
    long-division loop strictly decreases the running remainder's degree,
    and with the fuel the division operator uses the loop reaches its exit
    condition: the final remainder's degree (with -1 for zero) is strictly
    below the divisor's, after which the canonicalized quotient is
    returned. -/
theorem claim_C4 {T : Type} [Field T] [DecidableEq T] (b : Poly T) (hb : 0 ≤ Degree b) :
    (∀ f : Poly T, Degree b ≤ Degree f → Degree (divStep b f) < Degree f) ∧
    (∀ a : Poly T,
      Degree (divLoopFuel (a.coef.length + 1) a (List.replicate a.coef.length 0) b).1
        < Degree b ∧
      div a b = ofList (divLoopFuel (a.coef.length + 1) a
        (List.replicate a.coef.length 0) b).2) := by
  refine ⟨fun f hf => divStep_degree_lt b f hb hf, fun a => ⟨?_, rfl⟩⟩
  apply divLoopFuel_degree_lt b hb
  have := degree_lt_length a
  omega

theorem claim_C4_witness :
    (0 ≤ Degree (ofList [(1:F5), 1])) ∧
    Degree (divLoopFuel ((ofList [(1:F5), 0, 1]).coef.length + 1) (ofList [(1:F5), 0, 1])
        (List.replicate (ofList [(1:F5), 0, 1]).coef.length 0) (ofList [(1:F5), 1])).1
      < Degree (ofList [(1:F5), 1]) :=
  ⟨by decide, ((claim_C4 (ofList [(1:F5), 1]) (by decide)).2 (ofList [(1:F5), 0, 1])).1⟩

/-- Claim C5: the streaming formatter prints terms highest degree first,
    skipping zero coefficients, with the documented sign and unit-coefficient
    conventions; in particular the coefficient vectors [0,1], [0,-1], [5],
    [], [1,2,1] print as "x", "-x", "5", "0", "x^2+2*x+1", and any zero
    polynomial prints as "0". -/
theorem claim_C5 :
    printPoly (ofList [(0:Int), 1]) = "x" ∧
    printPoly (ofList [(0:Int), -1]) = "-x" ∧
    printPoly (ofList [(5:Int)]) = "5" ∧
    printPoly (ofList ([] : List Int)) = "0" ∧
    printPoly (ofList [(1:Int), 2, 1]) = "x^2+2*x+1" ∧
    (∀ p : Poly Int, Degree p = -1 → printPoly p = "0") := by
  refine ⟨by decide, by decide, by decide, by decide, by decide, ?_⟩
  intro p h
  unfold printPoly
  rw [if_pos h]

theorem claim_C5_witness :
    Degree (ofList [(0:Int), 0]) = -1 ∧ printPoly (ofList [(0:Int), 0]) = "0" :=
  ⟨by decide, claim_C5.2.2.2.2.2 (ofList [(0:Int), 0]) (by decide)⟩

/-- Claim C6: the composition operator agrees pointwise (hence under the
    class's equality) with the full sum over all stored indices of
    `c[i] * Q^i`, each power computed by i successive multiplications from
    the constant `c[i]` — so skipping zero coefficients contributes nothing;
    composing the zero polynomial yields the zero polynomial, and
    `(x^2) & (x+1) = x^2+2*x+1`. -/
theorem claim_C6 :
    (∀ p q : Poly Int, polyBEq (comp p q) (compAll p q) = true) ∧
    (∀ q : Poly Int, comp (ofConst 0) q = ofConst 0) ∧
    polyBEq (comp (ofList [(0:Int), 0, 1]) (ofList [(1:Int), 1]))
      (ofList [(1:Int), 2, 1]) = true := by
  refine ⟨?_, ?_, by decide⟩
  · intro p q
    exact polyBEq_of_pointwise _ _ (comp_pointwise p q)
  · intro q
    rfl

/-- Claim C7: coefficient access never fails: it returns the stored
    coefficient when the index is below the stored length, and the
    coefficient type's zero value at or beyond it. -/
theorem claim_C7 {T : Type} [CommRing T] [DecidableEq T] (p : Poly T) (d : Nat) :
    (∀ h : d < p.coef.length, getCoef p d = p.coef.get ⟨d, h⟩) ∧
    (p.coef.length ≤ d → getCoef p d = 0) :=
  ⟨fun h => getD_lt p.coef d h, fun h => getD_out p.coef d h⟩

theorem claim_C7_witness :
    getCoef (⟨[(3:Int), 4]⟩ : Poly Int) 1 = (⟨[(3:Int), 4]⟩ : Poly Int).coef.get ⟨1, by decide⟩
      ∧ getCoef (⟨[(3:Int), 4]⟩ : Poly Int) 5 = 0 :=
  ⟨(claim_C7 (⟨[(3:Int), 4]⟩ : Poly Int) 1).1 (by decide),
   (claim_C7 (⟨[(3:Int), 4]⟩ : Poly Int) 5).2 (by decide)⟩

/-- Claim C8: with exact commutative coefficient arithmetic, addition is
    commutative, `A - A` is the zero polynomial, and `(A + B) - B == A`,
    all under the class's equality operator. -/
theorem claim_C8 {T : Type} [CommRing T] [DecidableEq T] (a b : Poly T) :
    polyBEq (add a b) (add b a) = true ∧
    polyBEq (sub a a) (ofConst 0) = true ∧
    polyBEq (sub (add a b) b) a = true := by
  refine ⟨?_, ?_, ?_⟩
  · apply polyBEq_of_pointwise
    intro k
    rw [getCoef_add, getCoef_add, add_comm]
  · apply polyBEq_of_pointwise
    intro k
    rw [getCoef_sub, sub_self, getCoef_ofConst]
    split <;> rfl
  · apply polyBEq_of_pointwise
    intro k
    rw [getCoef_sub, getCoef_add]
    ring

/-- Claim C9: the in-place operators agree with the pure ones — `+=`, `-=`
    and `*=` produce exactly the value of `+`, `-`, `*` on the original
    operands (the returned receiver is that value), including the
    self-aliased case: `a += a` doubles every coefficient. -/
theorem claim_C9 {T : Type} [CommRing T] [DecidableEq T] (a b : Poly T) :
    addAssign a b = add a b ∧ subAssign a b = sub a b ∧ mulAssign a b = mul a b ∧
    (∀ i, getCoef (addAssign a a) i = 2 * getCoef a i) := by
  refine ⟨addAssign_eq_add a b, subAssign_eq_sub a b, mulAssign_eq_mul a b, ?_⟩
  intro i
  rw [getCoef_addAssign]
  ring

/-- Claim C10: for a non-zero divisor over an exact field, the remainder
    `A % B` has degree strictly below `B`'s degree; in particular dividing
    by a non-zero constant (degree 0) leaves the zero remainder
    (degree -1). -/
theorem claim_C10 {T : Type} [Field T] [DecidableEq T] (a b : Poly T) (hb : 0 ≤ Degree b) :
    Degree (pmod a b) < Degree b ∧ (Degree b = 0 → Degree (pmod a b) = -1) := by
  have h := pmod_degree_lt a b hb
  refine ⟨h, fun h0 => ?_⟩
  have := neg_one_le_degree (pmod a b)
  omega

theorem claim_C10_witness :
    (0 ≤ Degree (ofList [(1:F5), 1])) ∧
    Degree (pmod (ofList [(2:F5), 0, 1]) (ofList [(1:F5), 1])) < Degree (ofList [(1:F5), 1]) :=
  ⟨by decide, (claim_C10 (ofList [(2:F5), 0, 1]) (ofList [(1:F5), 1]) (by decide)).1⟩

end PolyCpp
